import Mathlib

/-!
Verification of the `ExamScheduler` core of `src/main.py` (EXAM-PLANNER).

The Python class keeps two fields:
  * `self.graph : defaultdict(set)` — adjacency mapping course → set of
    conflicting courses; reading a missing key inserts an empty set;
  * `self.courses : set` — the registered courses.

We embed the state shallowly:
  * the `defaultdict` becomes an insertion-ordered association list
    `List (String × List String)` (Python dicts preserve insertion order and
    have unique keys; the value sets become duplicate-free lists);
  * the course set becomes a duplicate-free insertion-ordered list.

Python set iteration order is unspecified, so `schedule_exams` takes the
enumeration order of `self.courses` as an explicit argument `enum`; every
duplicate-free listing of the courses is a possible behaviour of the source.
-/

/-- The scheduler state (`ExamScheduler.__init__`, src/main.py lines 7-10):
`graph` is the `defaultdict(set)` adjacency mapping, `courses` the set of
registered courses. -/
structure Scheduler where
  graph : List (String × List String)
  courses : List String
deriving DecidableEq, Repr

/-- Reading `g[k]` from the adjacency mapping, where a missing key denotes the
empty set (the value a `defaultdict(set)` read would create). -/
def dictGet : List (String × List String) → String → List String
  | [], _ => []
  | p :: g, k => if p.1 = k then p.2 else dictGet g k

/-- The key list of the mapping (`g.keys()`). -/
def dictKeys (g : List (String × List String)) : List String :=
  g.map Prod.fst

/-- Effect on the mapping of merely READING `g[k]` on a `defaultdict(set)`:
if `k` is absent, the entry `k ↦ ∅` is inserted at the end. -/
def dictTouch : List (String × List String) → String → List (String × List String)
  | [], k => [(k, [])]
  | p :: g, k => if p.1 = k then p :: g else p :: dictTouch g k

/-- Python `set.add`: append the element unless already present. -/
def setAdd (s : List String) (x : String) : List String :=
  if x ∈ s then s else s ++ [x]

/-- `g[k].add(v)` on the `defaultdict(set)`: create the entry if missing,
then add `v` to its value set. -/
def dictAddEdge : List (String × List String) → String → String → List (String × List String)
  | [], k, v => [(k, [v])]
  | p :: g, k, v => if p.1 = k then (p.1, setAdd p.2 v) :: g else p :: dictAddEdge g k v

/-- An `ExamScheduler()` fresh instance. -/
def initScheduler : Scheduler := { graph := [], courses := [] }

/-- `ExamScheduler.add_course` (src/main.py lines 12-14). -/
def add_course (s : Scheduler) (c : String) : Scheduler :=
  { s with courses := setAdd s.courses c }

/-- `ExamScheduler.remove_course` (src/main.py lines 16-23): when the course is
registered, remove it from `courses`, delete its adjacency entry, and discard
it from every remaining neighbour set; otherwise do nothing. -/
def remove_course (s : Scheduler) (c : String) : Scheduler :=
  if c ∈ s.courses then
    { graph := (s.graph.filter (fun p => p.1 ≠ c)).map
        (fun p => (p.1, p.2.filter (fun x => x ≠ c))),
      courses := s.courses.filter (fun x => x ≠ c) }
  else s

/-- `ExamScheduler.add_conflict` (src/main.py lines 25-29): insert the edge in
both directions and register both endpoints. Note the source performs NO
`course1 != course2` validation. -/
def add_conflict (s : Scheduler) (c1 c2 : String) : Scheduler :=
  { graph := dictAddEdge (dictAddEdge s.graph c1 c2) c2 c1,
    courses := setAdd (setAdd s.courses c1) c2 }

/-- Degree of a course: `len(self.graph[c])`. -/
def degree (g : List (String × List String)) (c : String) : Nat :=
  (dictGet g c).length

/-- Insertion step of a stable degree-descending sort: `x` is placed before the
first element of strictly smaller-or-equal degree, so equal-degree elements
keep their original relative order. -/
def insertByDegDesc (g : List (String × List String)) (x : String) :
    List String → List String
  | [] => [x]
  | y :: ys => if degree g x < degree g y then y :: insertByDegDesc g x ys
               else x :: y :: ys

/-- `sorted(self.courses, key=lambda c: len(self.graph[c]), reverse=True)`
(src/main.py line 41): a stable sort by degree descending of the
set-enumeration order `xs`. -/
def sortByDegDesc (g : List (String × List String)) (xs : List String) : List String :=
  xs.foldr (insertByDegDesc g) []

/-- Lookup in the `time_slots` dict being built. -/
def tsLookup : List (String × Nat) → String → Option Nat
  | [], _ => none
  | p :: ts, c => if p.1 = c then some p.2 else tsLookup ts c

/-- `slot_counts[sl]`: how many courses are currently placed in slot `sl`. -/
def countSlot (ts : List (String × Nat)) (sl : Nat) : Nat :=
  (ts.filter (fun p => p.2 == sl)).length

/-- The set comprehension of src/main.py line 47: slots already used by
already-assigned conflicting neighbours of `c`. -/
def forbiddenSlots (g : List (String × List String)) (ts : List (String × Nat))
    (c : String) : List Nat :=
  (dictGet g c).filterMap (tsLookup ts)

/-- Negation of the `while` guard of src/main.py line 50: slot `sl` is usable
when it is not used by a conflicting neighbour and holds fewer than 2 courses. -/
def slotOk (forb : List Nat) (ts : List (String × Nat)) (sl : Nat) : Bool :=
  !(forb.contains sl) && decide (countSlot ts sl < 2)

/-- Fuelled linear scan for the first value from `sl` upward satisfying `p`
(the `slot += 1` loop of src/main.py lines 48-51). -/
def findFrom (p : Nat → Bool) : Nat → Nat → Nat
  | 0, sl => sl
  | fuel + 1, sl => if p sl then sl else findFrom p fuel (sl + 1)

/-- The slot chosen for the next course: first usable slot from 1 upward. The
fuel `forb.length + ts.length + 1` is provably enough (`exists_good_slot`),
which is exactly the termination argument for the Python `while` loop. -/
def chooseSlot (forb : List Nat) (ts : List (String × Nat)) : Nat :=
  findFrom (slotOk forb ts) (forb.length + ts.length + 1) 1

/-- The `for course in sorted_courses` loop of src/main.py lines 45-53,
threading the `time_slots` association list. -/
def assignLoop (g : List (String × List String)) :
    List String → List (String × Nat) → List (String × Nat)
  | [], ts => ts
  | c :: cs, ts => assignLoop g cs (ts ++ [(c, chooseSlot (forbiddenSlots g ts c) ts)])

/-- `ExamScheduler.schedule_exams` (src/main.py lines 31-55). `enum` is the
(unspecified) iteration order of the Python set `self.courses`. The returned
pair is (the `time_slots` result, the post-call scheduler state): evaluating
the sort key `len(self.graph[c])` on the `defaultdict` inserts an empty
adjacency entry for every course not yet a key, which is the `foldl dictTouch`
in the returned state. -/
def schedule_exams (s : Scheduler) (enum : List String) :
    List (String × Nat) × Scheduler :=
  if s.courses.isEmpty then ([], s)
  else
    let g := enum.foldl dictTouch s.graph
    (assignLoop g (sortByDegDesc g enum) [], { s with graph := g })

/-- The warning dialogs that `ExamPlannerUI.add_conflict` can show
(src/main.py lines 219-239): missing input, the message that a course cannot
conflict with itself, and the unknown-course message. -/
inductive UiWarning where
  | emptyInput
  | selfConflict
  | unknownCourse
deriving DecidableEq, Repr

/-- `ExamPlannerUI.add_conflict` (src/main.py lines 219-239), on the already
whitespace-stripped entry texts: validation happens here, in the UI layer, and
only a validated pair reaches `ExamScheduler.add_conflict`. -/
def ui_add_conflict (s : Scheduler) (c1 c2 : String) : Option UiWarning × Scheduler :=
  if c1 = "" ∨ c2 = "" then (some UiWarning.emptyInput, s)
  else if c1 = c2 then (some UiWarning.selfConflict, s)
  else if c1 ∉ s.courses ∨ c2 ∉ s.courses then (some UiWarning.unknownCourse, s)
  else (none, add_conflict s c1 c2)

/-- States reachable from a fresh `ExamScheduler()` by the three mutating core
operations. -/
inductive Reachable : Scheduler → Prop where
  | init : Reachable initScheduler
  | addCourse (s : Scheduler) (c : String) : Reachable s → Reachable (add_course s c)
  | removeCourse (s : Scheduler) (c : String) : Reachable s → Reachable (remove_course s c)
  | addConflict (s : Scheduler) (a b : String) : Reachable s → Reachable (add_conflict s a b)

/-- The worked 4-cycle example of the spec: items A, B, C, D with conflicts
A-B, B-C, C-D, A-D, built through the core operations. -/
def cycleScheduler : Scheduler :=
  add_conflict (add_conflict (add_conflict (add_conflict initScheduler "A" "B") "B" "C") "C" "D") "A" "D"

/-- A reachable state holding a self-conflict, produced by the unvalidated core
`add_conflict` with equal arguments. -/
def selfLoopScheduler : Scheduler := add_conflict initScheduler "A" "A"

/-! ### Basic lemmas on the dictionary and set embeddings -/

theorem mem_setAdd {s : List String} {x y : String} :
    y ∈ setAdd s x ↔ y ∈ s ∨ y = x := by
  by_cases h : x ∈ s
  · simp only [setAdd, if_pos h]
    exact ⟨Or.inl, fun hc => hc.elim id (fun he => he ▸ h)⟩
  · simp [setAdd, if_neg h, List.mem_append]

theorem dictGet_dictAddEdge (g : List (String × List String)) (k v x : String) :
    dictGet (dictAddEdge g k v) x =
      if x = k then setAdd (dictGet g k) v else dictGet g x := by
  induction g with
  | nil =>
    by_cases h : x = k
    · simp [dictAddEdge, dictGet, h, setAdd]
    · have hkx : ¬ k = x := fun he => h he.symm
      simp [dictAddEdge, dictGet, h, hkx]
  | cons p g ih =>
    by_cases hpk : p.1 = k <;> by_cases hpx : p.1 = x
    · have hxk : x = k := hpx.symm.trans hpk
      simp [dictAddEdge, dictGet, hpk, hpx, hxk]
    · have hxk : ¬ x = k := fun he => hpx (hpk.trans he.symm)
      have hkx : ¬ k = x := fun he => hxk he.symm
      simp [dictAddEdge, dictGet, hpk, hpx, hxk, hkx]
    · have hxk : ¬ x = k := fun he => hpk (hpx.trans he)
      have hkx : ¬ k = x := fun he => hxk he.symm
      simp [dictAddEdge, dictGet, hpk, hpx, hxk, hkx]
    · simp [dictAddEdge, dictGet, hpk, hpx, ih]

theorem dictGet_dictTouch (g : List (String × List String)) (k x : String) :
    dictGet (dictTouch g k) x = dictGet g x := by
  induction g with
  | nil =>
    by_cases h : k = x <;> simp [dictTouch, dictGet, h]
  | cons p g ih =>
    by_cases hpk : p.1 = k
    · simp [dictTouch, hpk]
    · by_cases hpx : p.1 = x
      · have hxk : ¬ x = k := fun he => hpk (hpx.trans he)
        simp [dictTouch, dictGet, hpk, hpx, hxk]
      · simp [dictTouch, dictGet, hpk, hpx, ih]

theorem dictGet_foldl_dictTouch (l : List String) (g : List (String × List String))
    (x : String) : dictGet (l.foldl dictTouch g) x = dictGet g x := by
  induction l generalizing g with
  | nil => rfl
  | cons c l ih => simp [List.foldl_cons, ih, dictGet_dictTouch]

theorem dictGet_eq_nil_of_not_mem_keys {g : List (String × List String)} {x : String}
    (h : x ∉ dictKeys g) : dictGet g x = [] := by
  induction g with
  | nil => rfl
  | cons p g ih =>
    simp only [dictKeys, List.map_cons, List.mem_cons] at h
    push_neg at h
    have hpx : ¬ p.1 = x := fun he => h.1 he.symm
    simp [dictGet, hpx, ih (by simp [dictKeys, h.2])]

theorem mem_dictKeys_dictTouch {g : List (String × List String)} {k x : String} :
    x ∈ dictKeys (dictTouch g k) ↔ x ∈ dictKeys g ∨ x = k := by
  induction g with
  | nil => simp [dictTouch, dictKeys]
  | cons p g ih =>
    by_cases hpk : p.1 = k
    · simp only [dictTouch, if_pos hpk]
      constructor
      · exact Or.inl
      · intro h
        rcases h with h | h
        · exact h
        · subst h
          simp only [dictKeys, List.map_cons, List.mem_cons]
          exact Or.inl hpk.symm
    · simp only [dictTouch, if_neg hpk, dictKeys, List.map_cons, List.mem_cons]
      rw [show (dictTouch g k).map Prod.fst = dictKeys (dictTouch g k) from rfl, ih]
      simp [dictKeys, or_assoc]

theorem mem_dictKeys_foldl_dictTouch {l : List String} {g : List (String × List String)}
    {x : String} : x ∈ dictKeys (l.foldl dictTouch g) ↔ x ∈ dictKeys g ∨ x ∈ l := by
  induction l generalizing g with
  | nil => simp
  | cons c l ih =>
    simp only [List.foldl_cons, List.mem_cons]
    rw [ih, mem_dictKeys_dictTouch]
    tauto

/-! ### Membership characterisations of the mutating operations -/

theorem mem_dictGet_add_conflict (s : Scheduler) (a b x y : String) :
    y ∈ dictGet (add_conflict s a b).graph x ↔
      y ∈ dictGet s.graph x ∨ (x = a ∧ y = b) ∨ (x = b ∧ y = a) := by
  show y ∈ dictGet (dictAddEdge (dictAddEdge s.graph a b) b a) x ↔ _
  simp only [dictGet_dictAddEdge]
  split_ifs with h1 h2 h3 <;> simp_all [mem_setAdd]

theorem mem_courses_add_conflict (s : Scheduler) (a b x : String) :
    x ∈ (add_conflict s a b).courses ↔ x ∈ s.courses ∨ x = a ∨ x = b := by
  show x ∈ setAdd (setAdd s.courses a) b ↔ _
  rw [mem_setAdd, mem_setAdd]
  tauto

theorem mem_courses_add_course (s : Scheduler) (c x : String) :
    x ∈ (add_course s c).courses ↔ x ∈ s.courses ∨ x = c := mem_setAdd

theorem mem_courses_remove_course (s : Scheduler) (c x : String) :
    x ∈ (remove_course s c).courses ↔ x ∈ s.courses ∧ x ≠ c := by
  unfold remove_course
  split
  · simp [List.mem_filter]
  · rename_i h
    exact ⟨fun hx => ⟨hx, fun he => h (he ▸ hx)⟩, And.left⟩

theorem dictGet_remove_graph (g : List (String × List String)) (c x : String) :
    dictGet ((g.filter (fun p => p.1 ≠ c)).map (fun p => (p.1, p.2.filter (fun y => y ≠ c)))) x =
      if x = c then [] else (dictGet g x).filter (fun y => y ≠ c) := by
  induction g with
  | nil => by_cases h : x = c <;> simp [dictGet, h]
  | cons p g ih =>
    by_cases hpc : p.1 = c
    · have hfil : (p :: g).filter (fun p => decide (p.1 ≠ c)) =
          g.filter (fun p => decide (p.1 ≠ c)) := by
        simp [List.filter_cons, hpc]
      rw [hfil, ih]
      by_cases hxc : x = c
      · rw [if_pos hxc, if_pos hxc]
      · have hpx : ¬ p.1 = x := fun he => hxc (he.symm.trans hpc)
        rw [if_neg hxc, if_neg hxc]
        simp only [dictGet, if_neg hpx]
    · have hfil : (p :: g).filter (fun p => decide (p.1 ≠ c)) =
          p :: g.filter (fun p => decide (p.1 ≠ c)) := by
        simp [List.filter_cons, hpc]
      rw [hfil, List.map_cons]
      by_cases hpx : p.1 = x
      · have hxc : ¬ x = c := fun he => hpc (hpx.trans he)
        simp only [dictGet, if_pos hpx, if_neg hxc]
      · simp only [dictGet, if_neg hpx]
        exact ih

theorem mem_dictGet_remove_course (s : Scheduler) (c x y : String) (hc : c ∈ s.courses) :
    y ∈ dictGet (remove_course s c).graph x ↔
      x ≠ c ∧ y ≠ c ∧ y ∈ dictGet s.graph x := by
  unfold remove_course
  rw [if_pos hc]
  show y ∈ dictGet ((s.graph.filter _).map _) x ↔ _
  rw [dictGet_remove_graph]
  by_cases hxc : x = c
  · simp [hxc]
  · simp [hxc, List.mem_filter, and_comm]

/-! ### Lemmas on `tsLookup`, `countSlot`, `forbiddenSlots` and the slot scan -/

theorem tsLookup_append_some {ts : List (String × Nat)} {x : String} {v : Nat}
    (l2 : List (String × Nat)) (h : tsLookup ts x = some v) :
    tsLookup (ts ++ l2) x = some v := by
  induction ts with
  | nil => simp [tsLookup] at h
  | cons p ts ih =>
    by_cases hpx : p.1 = x
    · simpa [tsLookup, hpx] using h
    · simp only [tsLookup, if_neg hpx] at h
      simpa [tsLookup, hpx] using ih h

theorem tsLookup_append_none {ts : List (String × Nat)} {x : String}
    (l2 : List (String × Nat)) (h : tsLookup ts x = none) :
    tsLookup (ts ++ l2) x = tsLookup l2 x := by
  induction ts with
  | nil => rfl
  | cons p ts ih =>
    by_cases hpx : p.1 = x
    · simp [tsLookup, hpx] at h
    · simp only [tsLookup, if_neg hpx] at h
      simpa [tsLookup, hpx] using ih h

theorem mem_of_tsLookup_some {ts : List (String × Nat)} {x : String} {v : Nat}
    (h : tsLookup ts x = some v) : (x, v) ∈ ts := by
  induction ts with
  | nil => simp [tsLookup] at h
  | cons p ts ih =>
    by_cases hpx : p.1 = x
    · rw [tsLookup, if_pos hpx] at h
      injection h with h
      exact List.mem_cons.mpr (Or.inl (Prod.ext hpx h).symm)
    · rw [tsLookup, if_neg hpx] at h
      exact List.mem_cons.mpr (Or.inr (ih h))

theorem tsLookup_isSome_iff {ts : List (String × Nat)} {x : String} :
    (tsLookup ts x).isSome = true ↔ x ∈ ts.map Prod.fst := by
  induction ts with
  | nil => simp [tsLookup]
  | cons p ts ih =>
    by_cases hpx : p.1 = x
    · simp [tsLookup, hpx]
    · have hxp : ¬ x = p.1 := fun he => hpx he.symm
      simp [tsLookup, hpx, hxp, ih]

theorem countSlot_append (ts : List (String × Nat)) (c : String) (sl s : Nat) :
    countSlot (ts ++ [(c, sl)]) s = countSlot ts s + (if sl = s then 1 else 0) := by
  unfold countSlot
  rw [List.filter_append]
  by_cases h : sl = s <;> simp [h]

theorem exists_mem_of_countSlot_pos {ts : List (String × Nat)} {s : Nat}
    (h : 0 < countSlot ts s) : ∃ p ∈ ts, p.2 = s := by
  unfold countSlot at h
  rw [List.length_pos] at h
  rcases List.exists_mem_of_ne_nil _ h with ⟨p, hp⟩
  have hp' := List.mem_filter.mp hp
  exact ⟨p, hp'.1, by simpa using hp'.2⟩

theorem mem_forbiddenSlots {g : List (String × List String)} {ts : List (String × Nat)}
    {c : String} {sl : Nat} :
    sl ∈ forbiddenSlots g ts c ↔ ∃ n ∈ dictGet g c, tsLookup ts n = some sl := by
  simp [forbiddenSlots, List.mem_filterMap]

theorem le_findFrom (p : Nat → Bool) (fuel : Nat) : ∀ sl : Nat, sl ≤ findFrom p fuel sl := by
  induction fuel with
  | zero => intro sl; exact Nat.le_refl sl
  | succ n ih =>
    intro sl
    simp only [findFrom]
    split
    · exact Nat.le_refl sl
    · exact Nat.le_trans (Nat.le_succ sl) (ih (sl + 1))

theorem findFrom_spec (p : Nat → Bool) (fuel : Nat) :
    ∀ sl : Nat, (∃ k, k < fuel ∧ p (sl + k) = true) → p (findFrom p fuel sl) = true := by
  induction fuel with
  | zero =>
    intro sl h
    rcases h with ⟨k, hk, _⟩
    omega
  | succ n ih =>
    intro sl h
    simp only [findFrom]
    split
    · assumption
    · rename_i hps
      rcases h with ⟨k, hk, hpk⟩

      cases k with
      | zero => exact absurd hpk hps
      | succ j =>
        refine ih (sl + 1) ⟨j, by omega, ?_⟩
        rw [show sl + 1 + j = sl + (j + 1) from by omega]
        exact hpk

theorem findFrom_least (p : Nat → Bool) (fuel : Nat) :
    ∀ sl t : Nat, sl ≤ t → t < findFrom p fuel sl → p t = false := by
  induction fuel with
  | zero =>
    intro sl t h1 h2
    simp only [findFrom] at h2
    omega
  | succ n ih =>
    intro sl t h1 h2
    simp only [findFrom] at h2
    by_cases hps : p sl = true
    · rw [if_pos hps] at h2
      omega
    · rw [if_neg hps] at h2
      by_cases hts : t = sl
      · subst hts
        exact Bool.eq_false_iff.mpr hps
      · exact ih (sl + 1) t (by omega) h2

theorem slotOk_iff (forb : List Nat) (ts : List (String × Nat)) (sl : Nat) :
    slotOk forb ts sl = true ↔ sl ∉ forb ∧ countSlot ts sl < 2 := by
  simp [slotOk, List.contains, List.elem_eq_mem]

theorem slotOk_false_iff (forb : List Nat) (ts : List (String × Nat)) (sl : Nat) :
    slotOk forb ts sl = false ↔ sl ∈ forb ∨ 2 ≤ countSlot ts sl := by
  rw [Bool.eq_false_iff, Ne, slotOk_iff]
  push_neg
  constructor
  · intro h
    by_cases hm : sl ∈ forb
    · exact Or.inl hm
    · exact Or.inr (h hm)
  · intro h hm
    rcases h with h | h
    · exact absurd h hm
    · exact h

/-- The pigeonhole fact behind the termination of the `while` loop of
src/main.py lines 48-51: among the first `forb.length + ts.length + 1` slot
indices there is one that is neither forbidden nor full. -/
theorem exists_good_slot (forb : List Nat) (ts : List (String × Nat)) :
    ∃ k, k < forb.length + ts.length + 1 ∧ slotOk forb ts (1 + k) = true := by
  by_contra hcon
  push_neg at hcon
  set n := forb.length + ts.length + 1 with hn
  have hbad : ∀ s ∈ Finset.Icc 1 n, s ∈ forb ∨ 2 ≤ countSlot ts s := by
    intro s hs
    rw [Finset.mem_Icc] at hs
    have h := hcon (s - 1) (by omega)
    rw [show 1 + (s - 1) = s from by omega] at h
    rw [← slotOk_false_iff]
    exact Bool.eq_false_iff.mpr h
  have hsub : Finset.Icc 1 n ⊆
      (Finset.Icc 1 n).filter (fun s => s ∈ forb) ∪
      (Finset.Icc 1 n).filter (fun s => 2 ≤ countSlot ts s) := by
    intro s hs
    rcases hbad s hs with h | h
    · exact Finset.mem_union_left _ (Finset.mem_filter.mpr ⟨hs, h⟩)
    · exact Finset.mem_union_right _ (Finset.mem_filter.mpr ⟨hs, h⟩)
  have h1 : ((Finset.Icc 1 n).filter (fun s => s ∈ forb)).card ≤ forb.length := by
    refine le_trans (Finset.card_le_card (fun s hs => ?_)) forb.toFinset_card_le
    exact List.mem_toFinset.mpr (Finset.mem_filter.mp hs).2
  have h2 : ((Finset.Icc 1 n).filter (fun s => 2 ≤ countSlot ts s)).card ≤ ts.length := by
    refine le_trans (Finset.card_le_card_of_injOn
      (fun s => (ts.filter (fun p => p.2 == s)).head!) ?_ ?_) ts.toFinset_card_le
    · intro s hs
      have hcount : 0 < countSlot ts s := by
        have := (Finset.mem_filter.mp hs).2
        omega
      unfold countSlot at hcount
      rw [List.length_pos] at hcount
      have hmem := List.head!_mem_self hcount
      have hmem2 := List.mem_filter.mp hmem
      exact List.mem_toFinset.mpr hmem2.1
    · intro s1 hs1 s2 hs2 heq
      have key : ∀ s, s ∈ (Finset.Icc 1 n).filter (fun s => 2 ≤ countSlot ts s) →
          ((ts.filter (fun p => p.2 == s)).head!).2 = s := by
        intro s hs
        have hcount : 0 < countSlot ts s := by
          have := (Finset.mem_filter.mp hs).2
          omega
        unfold countSlot at hcount
        rw [List.length_pos] at hcount
        have hmem := List.head!_mem_self hcount
        have hmem2 := List.mem_filter.mp hmem
        exact beq_iff_eq.mp hmem2.2
      rw [← key s1 hs1, ← key s2 hs2]
      exact congrArg Prod.snd heq
  have hcard := Finset.card_le_card hsub
  have hunion := Finset.card_union_le
    ((Finset.Icc 1 n).filter (fun s => s ∈ forb))
    ((Finset.Icc 1 n).filter (fun s => 2 ≤ countSlot ts s))
  rw [Nat.card_Icc] at hcard
  omega

theorem slotOk_chooseSlot (forb : List Nat) (ts : List (String × Nat)) :
    slotOk forb ts (chooseSlot forb ts) = true :=
  findFrom_spec _ _ _ (exists_good_slot forb ts)

theorem one_le_chooseSlot (forb : List Nat) (ts : List (String × Nat)) :
    1 ≤ chooseSlot forb ts :=
  le_findFrom _ _ 1

theorem chooseSlot_least (forb : List Nat) (ts : List (String × Nat)) (t : Nat)
    (h1 : 1 ≤ t) (h2 : t < chooseSlot forb ts) : slotOk forb ts t = false :=
  findFrom_least _ _ 1 t h1 h2

theorem tsLookup_singleton {c x : String} {sl v : Nat}
    (h : tsLookup [(c, sl)] x = some v) : x = c ∧ v = sl := by
  by_cases hcx : c = x
  · rw [show tsLookup [(c, sl)] x = if c = x then some sl else none from rfl, if_pos hcx] at h
    injection h with h
    exact ⟨hcx.symm, h.symm⟩
  · rw [show tsLookup [(c, sl)] x = if c = x then some sl else none from rfl, if_neg hcx] at h
    exact absurd h (by simp)

/-! ### Stable degree-descending sort lemmas -/

theorem insertByDegDesc_perm (g : List (String × List String)) (x : String)
    (l : List String) : (insertByDegDesc g x l).Perm (x :: l) := by
  induction l with
  | nil => exact List.Perm.refl _
  | cons y ys ih =>
    simp only [insertByDegDesc]
    split
    · exact (ih.cons y).trans (List.Perm.swap x y ys)
    · exact List.Perm.refl _

theorem sortByDegDesc_perm (g : List (String × List String)) (xs : List String) :
    (sortByDegDesc g xs).Perm xs := by
  induction xs with
  | nil => exact List.Perm.refl _
  | cons x xs ih =>
    simp only [sortByDegDesc, List.foldr_cons]
    exact (insertByDegDesc_perm g x _).trans (ih.cons x)

/-! ### Invariants of the assignment loop -/

theorem assignLoop_keys (g : List (String × List String)) :
    ∀ (cs : List String) (ts : List (String × Nat)),
      (assignLoop g cs ts).map Prod.fst = ts.map Prod.fst ++ cs := by
  intro cs
  induction cs with
  | nil => intro ts; simp [assignLoop]
  | cons c cs ih =>
    intro ts
    simp only [assignLoop]
    rw [ih]
    simp

theorem assignLoop_extends (g : List (String × List String)) :
    ∀ (cs : List String) (ts : List (String × Nat)),
      ∃ rest, assignLoop g cs ts = ts ++ rest := by
  intro cs
  induction cs with
  | nil => exact fun ts => ⟨[], by simp [assignLoop]⟩
  | cons c cs ih =>
    intro ts
    simp only [assignLoop]
    rcases ih (ts ++ [(c, chooseSlot (forbiddenSlots g ts c) ts)]) with ⟨rest, hrest⟩
    exact ⟨[(c, chooseSlot (forbiddenSlots g ts c) ts)] ++ rest, by rw [hrest, List.append_assoc]⟩

theorem assignLoop_pos (g : List (String × List String)) :
    ∀ (cs : List String) (ts : List (String × Nat)),
      (∀ p ∈ ts, 1 ≤ p.2) → ∀ p ∈ assignLoop g cs ts, 1 ≤ p.2 := by
  intro cs
  induction cs with
  | nil => exact fun ts h => h
  | cons c cs ih =>
    intro ts h
    simp only [assignLoop]
    refine ih _ (fun p hp => ?_)
    rcases List.mem_append.mp hp with hp | hp
    · exact h p hp
    · have hpe : p = (c, chooseSlot (forbiddenSlots g ts c) ts) := by simpa using hp
      rw [hpe]
      exact one_le_chooseSlot _ _

theorem assignLoop_capacity (g : List (String × List String)) :
    ∀ (cs : List String) (ts : List (String × Nat)),
      (∀ sl, countSlot ts sl ≤ 2) → ∀ sl, countSlot (assignLoop g cs ts) sl ≤ 2 := by
  intro cs
  induction cs with
  | nil => exact fun ts h => h
  | cons c cs ih =>
    intro ts h
    simp only [assignLoop]
    refine ih _ (fun sl => ?_)
    rw [countSlot_append]
    have hok := slotOk_chooseSlot (forbiddenSlots g ts c) ts
    rw [slotOk_iff] at hok
    by_cases he : chooseSlot (forbiddenSlots g ts c) ts = sl
    · rw [if_pos he]
      have := hok.2
      rw [he] at this
      omega
    · rw [if_neg he]
      have := h sl
      omega

/-- No two distinct conflicting courses share a slot in `ts`. -/
def NoConfl (g : List (String × List String)) (ts : List (String × Nat)) : Prop :=
  ∀ a b sa sb, a ≠ b → b ∈ dictGet g a →
    tsLookup ts a = some sa → tsLookup ts b = some sb → sa ≠ sb

theorem assignLoop_noConfl (g : List (String × List String))
    (hsym : ∀ a b, b ∈ dictGet g a → a ∈ dictGet g b) :
    ∀ (cs : List String) (ts : List (String × Nat)),
      NoConfl g ts → NoConfl g (assignLoop g cs ts) := by
  intro cs
  induction cs with
  | nil => exact fun ts h => h
  | cons c cs ih =>
    intro ts h
    simp only [assignLoop]
    refine ih _ ?_
    intro a b sa sb hab hconf ha hb
    have hok := slotOk_chooseSlot (forbiddenSlots g ts c) ts
    rw [slotOk_iff] at hok
    cases haOld : tsLookup ts a with
    | some va =>
      have ha2 : sa = va := by
        rw [tsLookup_append_some _ haOld] at ha
        injection ha with ha
        exact ha.symm
      cases hbOld : tsLookup ts b with
      | some vb =>
        have hb2 : sb = vb := by
          rw [tsLookup_append_some _ hbOld] at hb
          injection hb with hb
          exact hb.symm
        rw [ha2, hb2]
        exact h a b va vb hab hconf haOld hbOld
      | none =>
        rw [tsLookup_append_none _ hbOld] at hb
        rcases tsLookup_singleton hb with ⟨hbc, hsb⟩
        have hac : a ∈ dictGet g c := hsym a c (hbc ▸ hconf)
        have hforb : va ∈ forbiddenSlots g ts c :=
          mem_forbiddenSlots.mpr ⟨a, hac, haOld⟩
        rw [ha2, hsb]
        exact fun he => hok.1 (he ▸ hforb)
    | none =>
      rw [tsLookup_append_none _ haOld] at ha
      rcases tsLookup_singleton ha with ⟨hac, hsa⟩
      cases hbOld : tsLookup ts b with
      | some vb =>
        have hb2 : sb = vb := by
          rw [tsLookup_append_some _ hbOld] at hb
          injection hb with hb
          exact hb.symm
        have hforb : vb ∈ forbiddenSlots g ts c :=
          mem_forbiddenSlots.mpr ⟨b, hac ▸ hconf, hbOld⟩
        rw [hsa, hb2]
        exact fun he => hok.1 (he.symm ▸ hforb)
      | none =>
        rw [tsLookup_append_none _ hbOld] at hb
        rcases tsLookup_singleton hb with ⟨hbc, _⟩
        exact absurd (hac.trans hbc.symm) hab

/-- Every slot below an occupied slot is occupied. -/
def Contig (ts : List (String × Nat)) : Prop :=
  ∀ p ∈ ts, ∀ t, 1 ≤ t → t < p.2 → ∃ q ∈ ts, q.2 = t

theorem assignLoop_contig (g : List (String × List String)) :
    ∀ (cs : List String) (ts : List (String × Nat)),
      Contig ts → Contig (assignLoop g cs ts) := by
  intro cs
  induction cs with
  | nil => exact fun ts h => h
  | cons c cs ih =>
    intro ts h
    simp only [assignLoop]
    refine ih _ ?_
    intro p hp t ht1 ht2
    rcases List.mem_append.mp hp with hp | hp
    · rcases h p hp t ht1 ht2 with ⟨q, hq, hqt⟩
      exact ⟨q, List.mem_append_left _ hq, hqt⟩
    · have hpe : p = (c, chooseSlot (forbiddenSlots g ts c) ts) := by simpa using hp
      rw [hpe] at ht2
      have hbad := chooseSlot_least (forbiddenSlots g ts c) ts t ht1 ht2
      rw [slotOk_false_iff] at hbad
      rcases hbad with hbad | hbad
      · rcases mem_forbiddenSlots.mp hbad with ⟨n, _, hn⟩
        exact ⟨(n, t), List.mem_append_left _ (mem_of_tsLookup_some hn), rfl⟩
      · rcases exists_mem_of_countSlot_pos (by omega : 0 < countSlot ts t) with ⟨q, hq, hqt⟩
        exact ⟨q, List.mem_append_left _ hq, hqt⟩

/-! ### Invariants of reachable scheduler states -/

/-- The conflict mapping is symmetric. -/
def SymmG (g : List (String × List String)) : Prop :=
  ∀ a b, b ∈ dictGet g a → a ∈ dictGet g b

/-- Every endpoint of an edge is a registered course. -/
def ClosedS (s : Scheduler) : Prop :=
  ∀ a b, b ∈ dictGet s.graph a → a ∈ s.courses ∧ b ∈ s.courses

theorem reachable_invariant {s : Scheduler} (h : Reachable s) :
    SymmG s.graph ∧ ClosedS s := by
  induction h with
  | init =>
    constructor
    · intro a b hb
      simp [initScheduler, dictGet] at hb
    · intro a b hb
      simp [initScheduler, dictGet] at hb
  | addCourse s c hs ih =>
    constructor
    · exact ih.1
    · intro a b hb
      have hab := ih.2 a b hb
      exact ⟨(mem_courses_add_course s c a).mpr (Or.inl hab.1),
             (mem_courses_add_course s c b).mpr (Or.inl hab.2)⟩
  | removeCourse s c hs ih =>
    by_cases hc : c ∈ s.courses
    · constructor
      · intro a b hb
        rw [mem_dictGet_remove_course s c a b hc] at hb
        rw [mem_dictGet_remove_course s c b a hc]
        exact ⟨hb.2.1, hb.1, ih.1 a b hb.2.2⟩
      · intro a b hb
        rw [mem_dictGet_remove_course s c a b hc] at hb
        have hab := ih.2 a b hb.2.2
        exact ⟨(mem_courses_remove_course s c a).mpr ⟨hab.1, hb.1⟩,
               (mem_courses_remove_course s c b).mpr ⟨hab.2, hb.2.1⟩⟩
    · have he : remove_course s c = s := by rw [remove_course, if_neg hc]
      rw [he]
      exact ih
  | addConflict s a b hs ih =>
    constructor
    · intro x y hy
      rw [mem_dictGet_add_conflict] at hy ⊢
      rcases hy with hy | ⟨hx, hy⟩ | ⟨hx, hy⟩
      · exact Or.inl (ih.1 x y hy)
      · exact Or.inr (Or.inr ⟨hy, hx⟩)
      · exact Or.inr (Or.inl ⟨hy, hx⟩)
    · intro x y hy
      rw [mem_dictGet_add_conflict] at hy
      rcases hy with hy | ⟨hx, hy⟩ | ⟨hx, hy⟩
      · have hab := ih.2 x y hy
        exact ⟨(mem_courses_add_conflict s a b x).mpr (Or.inl hab.1),
               (mem_courses_add_conflict s a b y).mpr (Or.inl hab.2)⟩
      · exact ⟨(mem_courses_add_conflict s a b x).mpr (Or.inr (Or.inl hx)),
               (mem_courses_add_conflict s a b y).mpr (Or.inr (Or.inr hy))⟩
      · exact ⟨(mem_courses_add_conflict s a b x).mpr (Or.inr (Or.inr hx)),
               (mem_courses_add_conflict s a b y).mpr (Or.inr (Or.inl hy))⟩

/-! ### Unfolding `schedule_exams` -/

theorem schedule_exams_empty (s : Scheduler) (enum : List String)
    (h : s.courses = []) : schedule_exams s enum = ([], s) := by
  simp [schedule_exams, h]

theorem schedule_exams_def (s : Scheduler) (enum : List String)
    (h : ¬ s.courses = []) :
    schedule_exams s enum =
      (assignLoop (enum.foldl dictTouch s.graph)
         (sortByDegDesc (enum.foldl dictTouch s.graph) enum) [],
       { s with graph := enum.foldl dictTouch s.graph }) := by
  rw [schedule_exams, if_neg (by simpa [List.isEmpty_iff] using h)]

/-! ### The claims -/

/-- C1, counterexample: the core `ExamScheduler.add_conflict` does NOT fail on
equal arguments. `add_conflict(A, A)` on a fresh scheduler succeeds, registers
the course, and inserts a self-edge — refuting both "fails with
InvalidConflict" and "does not add any edge". -/
theorem c1_counterexample :
    add_conflict initScheduler "A" "A" =
      { graph := [("A", ["A"])], courses := ["A"] } ∧
    "A" ∈ dictGet (add_conflict initScheduler "A" "A").graph "A" := by
  exact ⟨by decide, by decide⟩

/-- C1, amended: the rejection of a self-conflict lives in the UI layer, not
in the core. For every nonempty identifier `a`, `ExamPlannerUI.add_conflict`
with both fields equal to `a` shows the warning that a course cannot conflict
with itself and leaves the scheduler unchanged, while the core
`ExamScheduler.add_conflict(a, a)` adds `a` to its own conflict set. -/
theorem c1_amended_thm (s : Scheduler) (a : String) (h : a ≠ "") :
    (ui_add_conflict s a a).1 = some UiWarning.selfConflict ∧
    (ui_add_conflict s a a).2 = s ∧
    a ∈ dictGet (add_conflict s a a).graph a := by
  have hcond : ¬ (a = "" ∨ a = "") := fun hc => h (hc.elim id id)
  refine ⟨?_, ?_, ?_⟩
  · rw [ui_add_conflict, if_neg hcond, if_pos rfl]
  · rw [ui_add_conflict, if_neg hcond, if_pos rfl]
  · rw [mem_dictGet_add_conflict]
    exact Or.inr (Or.inl ⟨rfl, rfl⟩)

/-- C1, witness for the amended theorem at a concrete input. -/
theorem c1_witness :
    ("A" : String) ≠ "" ∧
    ((ui_add_conflict initScheduler "A" "A").1 = some UiWarning.selfConflict ∧
     (ui_add_conflict initScheduler "A" "A").2 = initScheduler ∧
     "A" ∈ dictGet (add_conflict initScheduler "A" "A").graph "A") :=
  ⟨by decide, c1_amended_thm initScheduler "A" (by decide)⟩

/-- C5, counterexample: irreflexivity is NOT an invariant of the core
operations. The reachable state `add_conflict(init, A, A)` has `A` in its own
conflict set. -/
theorem c5_counterexample :
    Reachable selfLoopScheduler ∧ "A" ∈ dictGet selfLoopScheduler.graph "A" :=
  ⟨Reachable.addConflict _ _ _ Reachable.init, by decide⟩

/-- C5, amended: symmetry IS an invariant — in every state reachable by any
sequence of `add_course`, `remove_course`, `add_conflict`, `a` conflicts with
`b` iff `b` conflicts with `a` — and immediately after `add_conflict(a, b)`
both directions of the edge are present; but irreflexivity fails (see the
counterexample), since `add_conflict(a, a)` installs a self-conflict. -/
theorem c5_amended_thm :
    (∀ s : Scheduler, Reachable s →
      ∀ a b, b ∈ dictGet s.graph a → a ∈ dictGet s.graph b) ∧
    (∀ (s : Scheduler) (a b : String),
      b ∈ dictGet (add_conflict s a b).graph a ∧
      a ∈ dictGet (add_conflict s a b).graph b) := by
  constructor
  · exact fun s hs => (reachable_invariant hs).1
  · intro s a b
    constructor
    · rw [mem_dictGet_add_conflict]
      exact Or.inr (Or.inl ⟨rfl, rfl⟩)
    · rw [mem_dictGet_add_conflict]
      exact Or.inr (Or.inr ⟨rfl, rfl⟩)

/-- C5, witness at a concrete reachable state. -/
theorem c5_witness :
    "A" ∈ dictGet (add_conflict initScheduler "A" "B").graph "B" ∧
    "B" ∈ dictGet (add_conflict initScheduler "A" "B").graph "A" :=
  ⟨c5_amended_thm.1 _ (Reachable.addConflict _ _ _ Reachable.init) "A" "B" (by decide),
   (c5_amended_thm.2 initScheduler "A" "B").1⟩

/-- C7, counterexample: `schedule_exams` does NOT leave the graph mapping
identical. On the reachable state holding the single course `A` and no
conflicts, the graph has no keys before the call and key `A` (with an empty
value) after it, because evaluating `len(self.graph[c])` on the
`defaultdict(set)` inserts the missing entry. -/
theorem c7_counterexample :
    dictKeys ((schedule_exams (add_course initScheduler "A") ["A"]).2.graph) = ["A"] ∧
    dictKeys ((add_course initScheduler "A").graph) = [] ∧
    (["A"] : List String) ≠ [] := by
  exact ⟨by decide, by decide, by decide⟩

/-- C7, amended: `schedule_exams` never changes the course set or any conflict
set (the conflict relation is unchanged, pointwise), and the only change to
the graph mapping is the insertion of empty adjacency entries: every key
afterwards is an old key or an enumerated course, and every old key survives. -/
theorem c7_amended_thm (s : Scheduler) (enum : List String) :
    (schedule_exams s enum).2.courses = s.courses ∧
    (∀ c, dictGet (schedule_exams s enum).2.graph c = dictGet s.graph c) ∧
    (∀ k, k ∈ dictKeys (schedule_exams s enum).2.graph →
      k ∈ dictKeys s.graph ∨ k ∈ enum) ∧
    (∀ k, k ∈ dictKeys s.graph → k ∈ dictKeys (schedule_exams s enum).2.graph) := by
  by_cases hne : s.courses = []
  · rw [schedule_exams_empty s enum hne]
    exact ⟨rfl, fun c => rfl, fun k h => Or.inl h, fun k h => h⟩
  · rw [schedule_exams_def s enum hne]
    exact ⟨rfl, fun c => dictGet_foldl_dictTouch enum s.graph c,
           fun k h => mem_dictKeys_foldl_dictTouch.mp h,
           fun k h => mem_dictKeys_foldl_dictTouch.mpr (Or.inl h)⟩

/-- C7, witness for the amended theorem at a concrete input. -/
theorem c7_witness :
    (schedule_exams cycleScheduler ["A", "B", "C", "D"]).2.courses =
      cycleScheduler.courses ∧
    "A" ∈ dictKeys (schedule_exams cycleScheduler ["A", "B", "C", "D"]).2.graph :=
  ⟨(c7_amended_thm cycleScheduler ["A", "B", "C", "D"]).1,
   (c7_amended_thm cycleScheduler ["A", "B", "C", "D"]).2.2.2 "A" (by decide)⟩

/-- C8: `remove_course x` (on any state whose edges join registered courses,
as in every reachable state) removes `x` from the course set and removes every
edge incident to `x` — afterwards no course's conflict set contains `x` — and
is a no-op when `x` is not registered. -/
theorem c8_thm (s : Scheduler) (x : String)
    (hclosed : ∀ a b, b ∈ dictGet s.graph a → a ∈ s.courses ∧ b ∈ s.courses) :
    (x ∉ (remove_course s x).courses ∧
     ∀ a, x ∉ dictGet (remove_course s x).graph a) ∧
    (x ∉ s.courses → remove_course s x = s) := by
  constructor
  · constructor
    · rw [mem_courses_remove_course]
      exact fun h => h.2 rfl
    · intro a hx
      by_cases hc : x ∈ s.courses
      · rw [mem_dictGet_remove_course s x a x hc] at hx
        exact hx.2.1 rfl
      · have he : remove_course s x = s := by rw [remove_course, if_neg hc]
        rw [he] at hx
        exact hc (hclosed a x hx).2
  · intro hc
    rw [remove_course, if_neg hc]

/-- C8, witness at a concrete reachable state. -/
theorem c8_witness :
    "A" ∉ (remove_course cycleScheduler "A").courses ∧
    "A" ∉ dictGet (remove_course cycleScheduler "A").graph "B" :=
  ⟨(c8_thm cycleScheduler "A"
      (reachable_invariant (Reachable.addConflict _ _ _ (Reachable.addConflict _ _ _
        (Reachable.addConflict _ _ _ (Reachable.addConflict _ _ _ Reachable.init))))).2).1.1,
   (c8_thm cycleScheduler "A"
      (reachable_invariant (Reachable.addConflict _ _ _ (Reachable.addConflict _ _ _
        (Reachable.addConflict _ _ _ (Reachable.addConflict _ _ _ Reachable.init))))).2).1.2 "B"⟩

/-- C9: scheduling an empty course set returns the empty assignment (and, as
the source returns before touching anything, the state is unchanged); no
error is raised — the function is total. -/
theorem c9_thm (s : Scheduler) (enum : List String) (h : s.courses = []) :
    schedule_exams s enum = ([], s) :=
  schedule_exams_empty s enum h

/-- C9, witness on the fresh scheduler. -/
theorem c9_witness :
    initScheduler.courses = [] ∧
    schedule_exams initScheduler [] = ([], initScheduler) :=
  ⟨rfl, c9_thm initScheduler [] rfl⟩

/-- C2, counterexample: the claim fails on a reachable state holding a
self-conflict. On `add_conflict(init, A, A)` — where `A` conflicts with `A` —
scheduling assigns `A` and the pair `(A, A)` trivially shares its slot, so
"every pair of conflicting items gets different slots" is false as stated
over all scheduler states. The enumeration `[A]` is a valid listing of the
course set. -/
theorem c2_counterexample :
    List.Perm ["A"] selfLoopScheduler.courses ∧
    ¬ (∀ a b, b ∈ dictGet selfLoopScheduler.graph a →
        ∀ sa sb, tsLookup (schedule_exams selfLoopScheduler ["A"]).1 a = some sa →
          tsLookup (schedule_exams selfLoopScheduler ["A"]).1 b = some sb →
          sa ≠ sb) := by
  refine ⟨by decide, fun hcl => ?_⟩
  exact hcl "A" "A" (by decide) 1 1 (by decide) (by decide) rfl

/-- C2, amended: for every scheduler state whose conflict mapping is symmetric
(as every reachable state's is), every pair of DISTINCT conflicting registered
courses receives two different slots, for every enumeration order of the
course set. -/
theorem c2_amended_thm (s : Scheduler) (enum : List String)
    (hsub : ∀ x ∈ s.courses, x ∈ enum) (_hsup : ∀ x ∈ enum, x ∈ s.courses)
    (hsym : ∀ a ∈ dictKeys s.graph, ∀ b ∈ dictGet s.graph a, a ∈ dictGet s.graph b)
    (a b : String) (hab : a ≠ b) (hconf : b ∈ dictGet s.graph a)
    (ha : a ∈ s.courses) (hb : b ∈ s.courses) :
    ∃ sa sb, tsLookup (schedule_exams s enum).1 a = some sa ∧
      tsLookup (schedule_exams s enum).1 b = some sb ∧ sa ≠ sb := by
  have hsymF : SymmG s.graph := by
    intro x y hy
    by_cases hx : x ∈ dictKeys s.graph
    · exact hsym x hx y hy
    · rw [dictGet_eq_nil_of_not_mem_keys hx] at hy
      exact absurd hy (by simp)
  have hne : s.courses ≠ [] := List.ne_nil_of_mem ha
  rw [schedule_exams_def s enum hne]
  have hsymG : ∀ x y, y ∈ dictGet (enum.foldl dictTouch s.graph) x →
      x ∈ dictGet (enum.foldl dictTouch s.graph) y := by
    intro x y
    rw [dictGet_foldl_dictTouch, dictGet_foldl_dictTouch]
    exact hsymF x y
  have hkeys : (assignLoop (enum.foldl dictTouch s.graph)
      (sortByDegDesc (enum.foldl dictTouch s.graph) enum) []).map Prod.fst =
      sortByDegDesc (enum.foldl dictTouch s.graph) enum := by
    rw [assignLoop_keys]
    simp
  have hmemiff : ∀ x : String,
      x ∈ sortByDegDesc (enum.foldl dictTouch s.graph) enum ↔ x ∈ enum :=
    fun x => (sortByDegDesc_perm (enum.foldl dictTouch s.graph) enum).mem_iff
  have hais : (tsLookup (assignLoop (enum.foldl dictTouch s.graph)
      (sortByDegDesc (enum.foldl dictTouch s.graph) enum) []) a).isSome = true := by
    rw [tsLookup_isSome_iff, hkeys]
    exact (hmemiff a).mpr (hsub a ha)
  have hbis : (tsLookup (assignLoop (enum.foldl dictTouch s.graph)
      (sortByDegDesc (enum.foldl dictTouch s.graph) enum) []) b).isSome = true := by
    rw [tsLookup_isSome_iff, hkeys]
    exact (hmemiff b).mpr (hsub b hb)
  rcases Option.isSome_iff_exists.mp hais with ⟨sa, hsa⟩
  rcases Option.isSome_iff_exists.mp hbis with ⟨sb, hsb⟩
  refine ⟨sa, sb, hsa, hsb, ?_⟩
  have hbase : NoConfl (enum.foldl dictTouch s.graph) [] := by
    intro x y sx sy _ _ hx _
    exact absurd hx (by simp [tsLookup])
  have hconf2 : b ∈ dictGet (enum.foldl dictTouch s.graph) a := by
    rw [dictGet_foldl_dictTouch]
    exact hconf
  exact assignLoop_noConfl _ hsymG _ [] hbase a b sa sb hab hconf2 hsa hsb

/-- C2, witness for the amended theorem on the worked 4-cycle example. -/
theorem c2_witness :
    (∀ x ∈ cycleScheduler.courses, x ∈ ["A", "B", "C", "D"]) ∧
    "B" ∈ dictGet cycleScheduler.graph "A" ∧
    ∃ sa sb, tsLookup (schedule_exams cycleScheduler ["A", "B", "C", "D"]).1 "A" = some sa ∧
      tsLookup (schedule_exams cycleScheduler ["A", "B", "C", "D"]).1 "B" = some sb ∧
      sa ≠ sb :=
  ⟨by decide, by decide,
   c2_amended_thm cycleScheduler ["A", "B", "C", "D"] (by decide) (by decide)
     (by decide) "A" "B" (by decide) (by decide) (by decide) (by decide)⟩

/-- C3: in the assignment returned by `schedule_exams` (for any scheduler state
and any duplicate-free enumeration of the course set) the assigned courses are
pairwise distinct and every slot holds at most 2 of them — the hard-coded
`max_per_slot` of src/main.py line 50. -/
theorem c3_thm (s : Scheduler) (enum : List String) (hnd : enum.Nodup) :
    ((schedule_exams s enum).1.map Prod.fst).Nodup ∧
    ∀ sl, countSlot (schedule_exams s enum).1 sl ≤ 2 := by
  by_cases hne : s.courses = []
  · rw [schedule_exams_empty s enum hne]
    exact ⟨by simp, fun sl => by simp [countSlot]⟩
  · rw [schedule_exams_def s enum hne]
    constructor
    · rw [assignLoop_keys]
      simpa using ((sortByDegDesc_perm (enum.foldl dictTouch s.graph) enum).nodup_iff).mpr hnd
    · exact assignLoop_capacity _ _ [] (fun sl => by simp [countSlot])

/-- C3, witness on the worked 4-cycle example. -/
theorem c3_witness :
    (["A", "B", "C", "D"] : List String).Nodup ∧
    countSlot (schedule_exams cycleScheduler ["A", "B", "C", "D"]).1 1 ≤ 2 :=
  ⟨by decide, (c3_thm cycleScheduler ["A", "B", "C", "D"] (by decide)).2 1⟩

/-- C4, counterexample: the output on the 4-cycle example is NOT always
`{A:1, B:2, C:1, D:2}`, because the tie-break among equal-degree courses is
the Python set's unspecified iteration order, not lexicographic. Under the
equally valid enumeration `[B, A, D, C]` of the same course set, `A` is
assigned slot 2, not slot 1. -/
theorem c4_counterexample :
    List.Perm ["B", "A", "D", "C"] cycleScheduler.courses ∧
    (["B", "A", "D", "C"] : List String).Nodup ∧
    tsLookup (schedule_exams cycleScheduler ["B", "A", "D", "C"]).1 "A" = some 2 ∧
    (some 2 : Option Nat) ≠ some 1 := by
  exact ⟨by decide, by decide, by decide, by decide⟩

/-- C4, amended: under the lexicographic enumeration `[A, B, C, D]` that the
spec mandates for the tie-break, the 4-cycle example produces exactly the
assignment `{A:1, B:2, C:1, D:2}`, using 2 slots in total. -/
theorem c4_amended_thm :
    (schedule_exams cycleScheduler ["A", "B", "C", "D"]).1 =
      [("A", 1), ("B", 2), ("C", 1), ("D", 2)] ∧
    ((schedule_exams cycleScheduler ["A", "B", "C", "D"]).1.map Prod.snd).dedup = [1, 2] := by
  exact ⟨by decide, by decide⟩

/-- C6: `schedule_exams` (which is structurally recursive, hence total — the
inner scan provably finds a usable slot within `exists_good_slot`'s bound)
returns an assignment whose domain is exactly the course set: a course has an
assigned slot iff it is registered, and every assigned slot is a genuine slot
index (at least 1). -/
theorem c6_thm (s : Scheduler) (enum : List String)
    (hsub : ∀ x ∈ s.courses, x ∈ enum) (hsup : ∀ x ∈ enum, x ∈ s.courses) :
    (∀ x, (tsLookup (schedule_exams s enum).1 x).isSome = true ↔ x ∈ s.courses) ∧
    (∀ x sl, tsLookup (schedule_exams s enum).1 x = some sl → 1 ≤ sl) := by
  by_cases hne : s.courses = []
  · rw [schedule_exams_empty s enum hne]
    constructor
    · intro x
      simp [tsLookup, hne]
    · intro x sl h
      exact absurd h (by simp [tsLookup])
  · rw [schedule_exams_def s enum hne]
    constructor
    · intro x
      rw [tsLookup_isSome_iff, assignLoop_keys]
      simp only [List.map_nil, List.nil_append]
      rw [(sortByDegDesc_perm (enum.foldl dictTouch s.graph) enum).mem_iff]
      exact ⟨fun h => hsup x h, fun h => hsub x h⟩
    · intro x sl h
      have hm := mem_of_tsLookup_some h
      exact assignLoop_pos _ _ [] (by simp) (x, sl) hm

/-- C6, witness on the worked 4-cycle example. -/
theorem c6_witness :
    (∀ x ∈ cycleScheduler.courses, x ∈ ["A", "B", "C", "D"]) ∧
    ((tsLookup (schedule_exams cycleScheduler ["A", "B", "C", "D"]).1 "C").isSome = true ↔
      "C" ∈ cycleScheduler.courses) :=
  ⟨by decide,
   (c6_thm cycleScheduler ["A", "B", "C", "D"] (by decide) (by decide)).1 "C"⟩

/-- C10: the slots used by the returned assignment are contiguous from 1
upward — for any scheduler state and any enumeration, if some course is
assigned slot `sl` then every slot `t` with `1 ≤ t < sl` is occupied by some
course. -/
theorem c10_thm (s : Scheduler) (enum : List String) (x : String) (sl : Nat)
    (h : tsLookup (schedule_exams s enum).1 x = some sl) :
    ∀ t, 1 ≤ t → t < sl → ∃ q ∈ (schedule_exams s enum).1, q.2 = t := by
  intro t ht1 ht2
  by_cases hne : s.courses = []
  · rw [schedule_exams_empty s enum hne] at h
    exact absurd h (by simp [tsLookup])
  · rw [schedule_exams_def s enum hne] at h ⊢
    have hm := mem_of_tsLookup_some h
    have hbase : Contig ([] : List (String × Nat)) := by
      intro p hp
      exact absurd hp (by simp)
    exact assignLoop_contig _ _ [] hbase (x, sl) hm t ht1 ht2

/-- C10, witness on the worked 4-cycle example: `B` sits in slot 2, and slot 1
below it is indeed occupied. -/
theorem c10_witness :
    tsLookup (schedule_exams cycleScheduler ["A", "B", "C", "D"]).1 "B" = some 2 ∧
    ∃ q ∈ (schedule_exams cycleScheduler ["A", "B", "C", "D"]).1, q.2 = 1 :=
  ⟨by decide,
   c10_thm cycleScheduler ["A", "B", "C", "D"] "B" 2 (by decide) 1 (by decide) (by decide)⟩

